import Mathlib

/-!
Verification of the checkpoint adaptation and validation pipeline of
`fm/pretrained.py` (function `load_model_and_alphabet_core` and its helpers).

Strings are modelled as `List Char` (with `String` wrappers), parameter
mappings as insertion-ordered association lists with unique keys (Python
dicts), and tensors as opaque blobs `List Int` (one opaque value per row)
supporting the single `zero_row` operation the core uses.  In-place effects
(`dict.update`, `Tensor.zero_`) are modelled by explicit state passing: each
step returns the post-state of the objects the Python code mutates.
-/

namespace RNAFM

/-- Boolean test that `p` is a prefix of `s` (char-list level). -/
def startsWithL : List Char → List Char → Bool
  | [], _ => true
  | _ :: _, [] => false
  | p :: ps, c :: cs => p == c && startsWithL ps cs

/-- Python's substring test `p in s`: `p` occurs contiguously in `s`. -/
def hasSubL (p : List Char) : List Char → Bool
  | [] => p.isEmpty
  | c :: cs => startsWithL p (c :: cs) || hasSubL p cs

/-- Fuel-bounded worker for Python `s.split(sep)` with a nonempty separator:
scan left to right, cut at each non-overlapping occurrence of `sep`.
`acc` holds the chars of the current piece in reverse.  The fuel is an upper
bound on the number of scan steps; `pySplit` supplies `s.length`, which is
always sufficient for a nonempty separator. -/
def pySplitAux (sep : List Char) : Nat → List Char → List Char → List (List Char)
  | 0, acc, s => [acc.reverse ++ s]
  | _ + 1, acc, [] => [acc.reverse]
  | n + 1, acc, c :: cs =>
    if startsWithL sep (c :: cs) then
      acc.reverse :: pySplitAux sep n [] (List.drop sep.length (c :: cs))
    else
      pySplitAux sep n (c :: acc) cs

/-- Python `s.split(sep)` for a nonempty `sep`, on char lists. -/
def pySplit (sep s : List Char) : List (List Char) :=
  pySplitAux sep s.length [] s

/-- Fuel-bounded worker for `removeAllSep` (the fuel is an upper bound on the
scan steps; `removeAllSep` supplies the length, always sufficient for a
nonempty separator). -/
def removeAllSepF (sep : List Char) : Nat → List Char → List Char
  | 0, s => s
  | _ + 1, [] => []
  | n + 1, c :: cs =>
    if startsWithL sep (c :: cs) then removeAllSepF sep n (List.drop sep.length (c :: cs))
    else c :: removeAllSepF sep n cs

/-- Reference description (amended C5): delete every left-to-right,
non-overlapping occurrence of `sep` from `s`. -/
def removeAllSep (sep s : List Char) : List Char := removeAllSepF sep s.length s

/-- Reference description (amended C5): everything strictly after the first
occurrence of `sep` in `s` — the key up to and including that occurrence is
removed; the whole key is consumed when `sep` does not occur. -/
def dropThroughFirst (sep : List Char) : List Char → List Char
  | [] => []
  | c :: cs =>
    if startsWithL sep (c :: cs) then List.drop sep.length (c :: cs)
    else dropThroughFirst sep cs

/-- The characters of `"row"`. -/
def rowChars : List Char := ['r', 'o', 'w']

/-- The characters of `"column"`. -/
def colChars : List Char := ['c', 'o', 'l', 'u', 'm', 'n']

/-- Python `s.replace("row", "column")`: left-to-right, non-overlapping. -/
def rowToCol : List Char → List Char
  | [] => []
  | c1 :: c2 :: c3 :: rest =>
    if 'r' = c1 ∧ 'o' = c2 ∧ 'w' = c3 then
      'c' :: 'o' :: 'l' :: 'u' :: 'm' :: 'n' :: rowToCol rest
    else
      c1 :: rowToCol (c2 :: c3 :: rest)
  | c1 :: cs => c1 :: rowToCol cs

/-- Python `s.replace("column", "row")`: left-to-right, non-overlapping. -/
def colToRow : List Char → List Char
  | [] => []
  | c1 :: c2 :: c3 :: c4 :: c5 :: c6 :: rest =>
    if 'c' = c1 ∧ 'o' = c2 ∧ 'l' = c3 ∧ 'u' = c4 ∧ 'm' = c5 ∧ 'n' = c6 then
      'r' :: 'o' :: 'w' :: colToRow rest
    else
      c1 :: colToRow (c2 :: c3 :: c4 :: c5 :: c6 :: rest)
  | c1 :: cs => c1 :: colToRow cs

/-- Source line 82 (Convention C row/column swap):
`prs3 = lambda s: s.replace("row", "column") if "row" in s else s.replace("column", "row")`. -/
def rcSwapL (s : List Char) : List Char :=
  if hasSubL rowChars s then rowToCol s else colToRow s

/-- Source lines 62 and 80:
`prs1 = lambda s: ''.join(s.split('encoder.')[1:] if 'encoder' in s else s)`. -/
def prs1L (s : List Char) : List Char :=
  if hasSubL "encoder".data s then ((pySplit "encoder.".data s).tail).flatten else s

/-- Source lines 63 and 81:
`prs2 = lambda s: ''.join(s.split('sentence_encoder.')[1:] if 'sentence_encoder' in s else s)`. -/
def prs2L (s : List Char) : List Char :=
  if hasSubL "sentence_encoder".data s then ((pySplit "sentence_encoder.".data s).tail).flatten else s

/-- Source line 72 (Convention B):
`prs = lambda s: ''.join(s.split('decoder.')[1:] if 'decoder' in s else s)`. -/
def prsBL (s : List Char) : List Char :=
  if hasSubL "decoder".data s then ((pySplit "decoder.".data s).tail).flatten else s

/-- Source lines 61 and 79 (configuration-key rewrite of Conventions A and C):
`pra = lambda s: ''.join(s.split('encoder_')[1:] if 'encoder' in s else s)`. -/
def praAL (s : List Char) : List Char :=
  if hasSubL "encoder".data s then ((pySplit "encoder_".data s).tail).flatten else s

/-- Source line 71 (configuration-key rewrite of Convention B):
`pra = lambda s: ''.join(s.split('decoder_')[1:] if 'decoder' in s else s)`. -/
def praBL (s : List Char) : List Char :=
  if hasSubL "decoder".data s then ((pySplit "decoder_".data s).tail).flatten else s

/-- Convention A parameter-key rewrite, source line 65: `prs1(prs2(key))`. -/
def rewriteAS (s : String) : String := ⟨prs1L (prs2L s.data)⟩

/-- Convention B parameter-key rewrite, source line 74: `prs(key)`. -/
def rewriteBS (s : String) : String := ⟨prsBL s.data⟩

/-- Convention C parameter-key rewrite, source line 84: `prs1(prs2(prs3(key)))`. -/
def rewriteCS (s : String) : String := ⟨prs1L (prs2L (rcSwapL s.data))⟩

/-- Convention C row/column swap on strings (`prs3`, source line 82). -/
def prs3S (s : String) : String := ⟨rcSwapL s.data⟩

/-- Convention A/C configuration-key rewrite on strings (`pra`). -/
def praAS (s : String) : String := ⟨praAL s.data⟩

/-- Convention B configuration-key rewrite on strings (`pra`). -/
def praBS (s : String) : String := ⟨praBL s.data⟩

/-- Bind key `k` to `v` in an insertion-ordered association list: replace the
value at the first occurrence of `k`, or append `(k, v)` if `k` is absent.
This is Python's `d[k] = v`. -/
def setKey {β : Type} : List (String × β) → String → β → List (String × β)
  | [], k, v => [(k, v)]
  | (k', v') :: rest, k, v =>
    if k' = k then (k, v) :: rest else (k', v') :: setKey rest k v

/-- Python `d.update(e)`: bind every entry of `e` into `d`, in `e`'s order. -/
def dictUpdate {β : Type} (d e : List (String × β)) : List (String × β) :=
  e.foldl (fun acc kv => setKey acc kv.1 kv.2) d

/-- Python dict comprehension `{f(k): v for k, v in ps.items()}`:
insert the rewritten entries in order into a fresh dict (a later entry whose
rewritten key collides with an earlier one overwrites it). -/
def dictComp {β : Type} (f : String → String) (ps : List (String × β)) : List (String × β) :=
  ps.foldl (fun acc kv => setKey acc (f kv.1) kv.2) []

/-- Lookup in the overlay of dict `d` by dict `e`: the value from `e` when `e`
binds the key, otherwise the value from `d`. -/
def overlayLookup {β : Type} (d e : List (String × β)) (k : String) : Option β :=
  match e.lookup k with
  | some v => some v
  | none => d.lookup k

/-- An opaque tensor: one opaque value per row.  The core never inspects the
contents except to zero one row (`List.set i 0`). -/
abbrev Blob := List Int

/-- A parameters mapping: parameter name to blob, insertion ordered. -/
abbrev Params := List (String × Blob)

/-- One deserialized checkpoint: `model_data["args"].arch`, the remaining
configuration fields of `model_data["args"]`, and `model_data["model"]`. -/
structure Checkpoint where
  arch : String
  config : List (String × Int)
  params : Params
deriving DecidableEq

/-- Reconciliation outcome of the schema validator. -/
inductive Status where
  | Complete
  | MissingRegressionOnly
  | Error
deriving DecidableEq

/-- The result of key-set reconciliation: the (post-exemption) missing set,
the unexpected set, and the classification. -/
structure Recon where
  missing : List String
  unexpected : List String
  status : Status
deriving DecidableEq

/-- Failures of the load pipeline. -/
inductive LoadErr where
  | unknownArch
  | keyLookup (k : String)
  | schemaMismatch (missing unexpected : List String)
  | assignError (missing unexpected : List String)
deriving DecidableEq

/-- A successful load: the reconciled parameter state, the rewritten
configuration, and whether the non-fatal regression warning was emitted. -/
structure LoadOk where
  modelState : Params
  modelArgs : List (String × Int)
  warned : Bool
deriving DecidableEq

/-- Source line 99: `expected_missing`, the fixed exemption set. -/
def exemptionKeys : List String :=
  ["contact_head.regression.weight", "contact_head.regression.bias"]

/-- Source line 101: `missing = (expected_keys - found_keys) - expected_missing`. -/
def missingPost (expected found : List String) : List String :=
  (expected.filter (fun k => !found.contains k)).filter (fun k => !exemptionKeys.contains k)

/-- Source line 104: `unexpected = found_keys - expected_keys`. -/
def unexpectedOf (expected found : List String) : List String :=
  found.filter (fun k => !expected.contains k)

/-- The pre-exemption missing set `expected_keys - found_keys`. -/
def preMissing (expected found : List String) : List String :=
  expected.filter (fun k => !found.contains k)

/-- Source lines 98-112: the key-set reconciliation.  The whole block is
guarded by `if regression_data is None:`; with an auxiliary checkpoint present
nothing is checked here (strictness is deferred to assignment, line 114). -/
def validateCore (expected found : List String) (auxPresent : Bool) : Recon :=
  if auxPresent then ⟨[], [], Status.Complete⟩
  else if missingPost expected found ≠ [] ∨ unexpectedOf expected found ≠ [] then
    ⟨missingPost expected found, unexpectedOf expected found, Status.Error⟩
  else if exemptionKeys.filter (fun k => !found.contains k) ≠ [] then
    ⟨missingPost expected found, unexpectedOf expected found, Status.MissingRegressionOnly⟩
  else ⟨missingPost expected found, unexpectedOf expected found, Status.Complete⟩

/-- Modelled from the spec: the external model-construction collaborator's
`assign_parameters(mapping, strict)` (torch `load_state_dict`, source line
114), which is not part of this repository.  Per the spec, strict assignment
"must require an exact key match (no missing, no unexpected) at assignment
time"; non-strict assignment tolerates key mismatches. -/
def assignParams (expected found : List String) (strict : Bool) :
    Except (List String × List String) Unit :=
  if strict then
    let missing := expected.filter (fun k => !found.contains k)
    let unexpected := found.filter (fun k => !expected.contains k)
    if missing ≠ [] ∨ unexpected ≠ [] then Except.error (missing, unexpected)
    else Except.ok ()
  else Except.ok ()

/-- Source lines 54-55: `if regression_data is not None:
model_data["model"].update(regression_data["model"])`.  Returns the
post-state of the primary checkpoint: `dict.update` mutates
`model_data["model"]` in place, so after this step the primary holds the
overlaid mapping. -/
def mergeStep (md : Checkpoint) (rd : Option Checkpoint) : Checkpoint :=
  match rd with
  | none => md
  | some r => { md with params := dictUpdate md.params r.params }

/-- The merge step with all of its state made explicit: the triple is
(primary post-state, auxiliary post-state, the parameters mapping the rest of
the pipeline reads).  `regression_data` is only read, never written; the
merged mapping downstream is the very dict held by the primary. -/
def mergeStateStep (md : Checkpoint) (rd : Option Checkpoint) :
    Checkpoint × Option Checkpoint × Params :=
  (mergeStep md rd, rd, (mergeStep md rd).params)

/-- Source line 66:
`model_state["embed_tokens.weight"][alphabet.mask_idx].zero_()`.
A missing key raises (`KeyError`); otherwise the blob's row at the mask index
is zeroed in place, so the mapping now holds the zeroed blob. -/
def maskZeroStep (maskIdx : Nat) (ms : Params) : Except LoadErr Params :=
  match ms.lookup "embed_tokens.weight" with
  | none => Except.error (LoadErr.keyLookup "embed_tokens.weight")
  | some b => Except.ok (setKey ms "embed_tokens.weight" (b.set maskIdx 0))

/-- Source lines 59-89: dispatch on `model_data["args"].arch`, rewriting the
configuration keys and the parameter keys with the convention's rewriters and
applying the Convention A mask-index special case; any other architecture id
raises `ValueError("Unknown architecture selected")`.  The alphabet's
`mask_idx` (an external artifact of line 57) is passed in. -/
def archDispatch (md : Checkpoint) (maskIdx : Nat) :
    Except LoadErr (Params × List (String × Int)) :=
  if md.arch = "roberta_large" then
    (maskZeroStep maskIdx (dictComp rewriteAS md.params)).map
      (fun ms => (ms, dictComp praAS md.config))
  else if md.arch = "protein_bert_base" then
    Except.ok (dictComp rewriteBS md.params, dictComp praBS md.config)
  else if md.arch = "msa_transformer" then
    Except.ok (dictComp rewriteCS md.params, dictComp praAS md.config)
  else Except.error LoadErr.unknownArch

/-- Source lines 53-116, `load_model_and_alphabet_core`: merge, dispatch and
rewrite, validate, warn, assign.  `expectedKeys` abstracts
`model.state_dict().keys()` of the externally constructed model, and
`maskIdx` abstracts `alphabet.mask_idx`.  The second component is the
post-state of the primary checkpoint (`model_data`), which line 55 updates in
place when an auxiliary checkpoint is present. -/
def loadCore (md : Checkpoint) (rd : Option Checkpoint) (maskIdx : Nat)
    (expectedKeys : List String) : Except LoadErr LoadOk × Checkpoint :=
  let md1 := mergeStep md rd
  match archDispatch md1 maskIdx with
  | Except.error e => (Except.error e, md1)
  | Except.ok (ms, margs) =>
    let found := ms.map Prod.fst
    let recon := validateCore expectedKeys found rd.isSome
    match recon.status with
    | Status.Error =>
      (Except.error (LoadErr.schemaMismatch recon.missing recon.unexpected), md1)
    | st =>
      match assignParams expectedKeys found rd.isSome with
      | Except.error mu => (Except.error (LoadErr.assignError mu.1 mu.2), md1)
      | Except.ok _ =>
        (Except.ok ⟨ms, margs, decide (st = Status.MissingRegressionOnly)⟩, md1)

/-- A concrete checkpoint with an architecture id outside the known set. -/
def cpUnknown : Checkpoint := ⟨"quux_arch", [], [("a", [1])]⟩

/-- A concrete auxiliary (regression) checkpoint. -/
def cpAux : Checkpoint := ⟨"aux_ckpt", [], [("b", [9])]⟩

/-- A concrete `roberta_large` checkpoint with an `embed_tokens.weight` blob. -/
def cpRob : Checkpoint := ⟨"roberta_large", [], [("embed_tokens.weight", [5, 6]), ("x", [7])]⟩

/-- The rewritten state of `cpRob` after the mask-zeroing step at index 0. -/
def msRob : Params := [("embed_tokens.weight", [0, 6]), ("x", [7])]

/-- A concrete `roberta_large` checkpoint without `embed_tokens.weight`. -/
def cpRobNoEmbed : Checkpoint := ⟨"roberta_large", [], [("p", [1])]⟩

/-- A concrete primary checkpoint for the merge examples. -/
def cpMergeP : Checkpoint := ⟨"roberta_large", [], [("a", [1]), ("b", [2])]⟩

/-- A concrete auxiliary checkpoint for the merge examples. -/
def cpMergeR : Checkpoint := ⟨"aux_ckpt", [], [("b", [9]), ("c", [3])]⟩


/-! ## Lemmas about the string primitives -/

theorem startsWithL_nil (s : List Char) : startsWithL [] s = true := rfl

theorem startsWithL_iff (p : List Char) : ∀ s : List Char,
    startsWithL p s = true ↔ ∃ t, s = p ++ t := by
  induction p with
  | nil =>
    intro s
    simp [startsWithL]
  | cons a ps ih =>
    intro s
    cases s with
    | nil => simp [startsWithL]
    | cons c cs =>
      simp only [startsWithL, Bool.and_eq_true, beq_iff_eq, ih, List.cons_append,
        List.cons.injEq]
      constructor
      · rintro ⟨rfl, t, rfl⟩
        exact ⟨t, rfl, rfl⟩
      · rintro ⟨t, rfl, rfl⟩
        exact ⟨rfl, t, rfl⟩

theorem hasSubL_cons (p : List Char) (c : Char) (cs : List Char) :
    hasSubL p (c :: cs) = (startsWithL p (c :: cs) || hasSubL p cs) := rfl

theorem hasSubL_iff (p : List Char) : ∀ s : List Char,
    hasSubL p s = true ↔ ∃ a b, s = a ++ p ++ b := by
  intro s
  induction s with
  | nil =>
    cases p with
    | nil => simp [hasSubL]
    | cons x xs => simp [hasSubL, List.isEmpty]
  | cons c cs ih =>
    simp only [hasSubL_cons, Bool.or_eq_true, startsWithL_iff, ih]
    constructor
    · rintro (⟨t, h⟩ | ⟨a, b, rfl⟩)
      · exact ⟨[], t, by simpa using h⟩
      · exact ⟨c :: a, b, rfl⟩
    · rintro ⟨a, b, h⟩
      cases a with
      | nil => exact Or.inl ⟨b, by simpa using h⟩
      | cons a0 as =>
        simp only [List.cons_append, List.cons.injEq] at h
        obtain ⟨rfl, h2⟩ := h
        exact Or.inr ⟨as, b, h2⟩

theorem hasSubL_of_startsWithL {p s : List Char} (h : startsWithL p s = true) :
    hasSubL p s = true := by
  rcases (startsWithL_iff p s).mp h with ⟨t, rfl⟩
  exact (hasSubL_iff p (p ++ t)).mpr ⟨[], t, rfl⟩

/-- A key containing `"sentence_encoder"` also contains `"encoder"`. -/
theorem hasSubL_sentenc_to_enc {s : List Char}
    (h : hasSubL "sentence_encoder".data s = true) : hasSubL "encoder".data s = true := by
  rcases (hasSubL_iff _ s).mp h with ⟨a, b, rfl⟩
  refine (hasSubL_iff _ _).mpr ⟨a ++ "sentence_".data, b, ?_⟩
  simp

/-- A key containing `p ++ q` contains `p`. -/
theorem hasSubL_append_left {p q s : List Char}
    (h : hasSubL (p ++ q) s = true) : hasSubL p s = true := by
  rcases (hasSubL_iff _ s).mp h with ⟨a, b, rfl⟩
  refine (hasSubL_iff _ _).mpr ⟨a, q ++ b, ?_⟩
  simp

/-- The fuel of `removeAllSepF` is irrelevant once it covers the length. -/
theorem removeAllSepF_fuel {sep : List Char} (hsep : sep ≠ []) :
    ∀ (n m : Nat) (x : List Char), x.length ≤ n → x.length ≤ m →
      removeAllSepF sep n x = removeAllSepF sep m x := by
  have hsl : 1 ≤ sep.length := List.length_pos.mpr hsep
  intro n
  induction n with
  | zero =>
    intro m x hx1 _
    have hx : x = [] := List.length_eq_zero.mp (Nat.le_zero.mp hx1)
    subst hx
    cases m with
    | zero => rfl
    | succ m2 => rfl
  | succ n2 ih =>
    intro m x hx1 hx2
    cases x with
    | nil =>
      cases m with
      | zero => rfl
      | succ m2 => rfl
    | cons c cs =>
      cases m with
      | zero => simp at hx2
      | succ m2 =>
        simp only [removeAllSepF]
        simp only [List.length_cons] at hx1 hx2
        by_cases hsw : startsWithL sep (c :: cs) = true
        · rw [if_pos hsw, if_pos hsw]
          refine ih m2 (List.drop sep.length (c :: cs)) ?_ ?_ <;>
            · rw [List.length_drop, List.length_cons]
              omega
        · rw [if_neg hsw, if_neg hsw, ih m2 cs (by omega) (by omega)]

/-- Unfolding `removeAllSep` when the separator matches at the head. -/
theorem removeAllSep_cons_pos {sep : List Char} (hsep : sep ≠ []) {c : Char} {cs : List Char}
    (hsw : startsWithL sep (c :: cs) = true) :
    removeAllSep sep (c :: cs) = removeAllSep sep (List.drop sep.length (c :: cs)) := by
  have hsl : 1 ≤ sep.length := List.length_pos.mpr hsep
  rw [removeAllSep, removeAllSep]
  rw [show (c :: cs).length = cs.length + 1 from rfl]
  simp only [removeAllSepF]
  rw [if_pos hsw]
  refine removeAllSepF_fuel hsep cs.length _ _ ?_ le_rfl
  rw [List.length_drop, List.length_cons]
  omega

/-- Unfolding `removeAllSep` when the separator does not match at the head. -/
theorem removeAllSep_cons_neg {sep : List Char} {c : Char} {cs : List Char}
    (hsw : ¬ startsWithL sep (c :: cs) = true) :
    removeAllSep sep (c :: cs) = c :: removeAllSep sep cs := by
  rw [removeAllSep, removeAllSep]
  rw [show (c :: cs).length = cs.length + 1 from rfl]
  simp only [removeAllSepF]
  rw [if_neg hsw]

/-- A string without an occurrence of the separator splits into one piece. -/
theorem pySplitAux_no_sub (sep : List Char) :
    ∀ (fuel : Nat) (s acc : List Char), s.length ≤ fuel → hasSubL sep s = false →
      pySplitAux sep fuel acc s = [acc.reverse ++ s] := by
  intro fuel
  induction fuel with
  | zero => intro s acc _ _; rfl
  | succ n ih =>
    intro s acc hlen hsub
    cases s with
    | nil => simp [pySplitAux]
    | cons c cs =>
      rw [hasSubL_cons] at hsub
      have h2 := Bool.or_eq_false_iff.mp hsub
      simp only [pySplitAux]
      rw [if_neg (by rw [h2.1]; exact Bool.false_ne_true)]
      rw [ih cs (c :: acc) (by simp only [List.length_cons] at hlen; omega) h2.2]
      simp

/-- Concatenating all pieces of the split deletes exactly the separator
occurrences. -/
theorem pySplitAux_flatten {sep : List Char} (hsep : sep ≠ []) :
    ∀ (fuel : Nat) (t acc : List Char), t.length ≤ fuel →
      (pySplitAux sep fuel acc t).flatten = acc.reverse ++ removeAllSep sep t := by
  have hsl : 1 ≤ sep.length := List.length_pos.mpr hsep
  intro fuel
  induction fuel with
  | zero =>
    intro t acc hlen
    have ht : t = [] := List.length_eq_zero.mp (Nat.le_zero.mp hlen)
    subst ht
    simp [pySplitAux, removeAllSep, removeAllSepF]
  | succ n ih =>
    intro t acc hlen
    cases t with
    | nil => simp [pySplitAux, removeAllSep, removeAllSepF]
    | cons c cs =>
      simp only [pySplitAux]
      simp only [List.length_cons] at hlen
      by_cases hsw : startsWithL sep (c :: cs) = true
      · rw [if_pos hsw, List.flatten_cons]
        rw [ih (List.drop sep.length (c :: cs)) []
          (by rw [List.length_drop, List.length_cons]; omega)]
        rw [removeAllSep_cons_pos hsep hsw]
        simp
      · rw [if_neg hsw, ih cs (c :: acc) (by omega), removeAllSep_cons_neg hsw]
        simp

/-- Joining all pieces after the first: the split-join composite equals the
remove-all pass applied to the text after the first separator occurrence. -/
theorem pySplitAux_tail_flatten {sep : List Char} (hsep : sep ≠ []) :
    ∀ (fuel : Nat) (s acc : List Char), s.length ≤ fuel → hasSubL sep s = true →
      ((pySplitAux sep fuel acc s).tail).flatten =
        removeAllSep sep (dropThroughFirst sep s) := by
  have hsl : 1 ≤ sep.length := List.length_pos.mpr hsep
  intro fuel
  induction fuel with
  | zero =>
    intro s acc hlen hsub
    have hs : s = [] := List.length_eq_zero.mp (Nat.le_zero.mp hlen)
    subst hs
    cases sep with
    | nil => exact absurd rfl hsep
    | cons a as => simp [hasSubL, List.isEmpty] at hsub
  | succ n ih =>
    intro s acc hlen hsub
    cases s with
    | nil =>
      cases sep with
      | nil => exact absurd rfl hsep
      | cons a as => simp [hasSubL, List.isEmpty] at hsub
    | cons c cs =>
      simp only [pySplitAux]
      simp only [List.length_cons] at hlen
      by_cases hsw : startsWithL sep (c :: cs) = true
      · rw [if_pos hsw, List.tail_cons]
        rw [pySplitAux_flatten hsep n (List.drop sep.length (c :: cs)) []
          (by rw [List.length_drop, List.length_cons]; omega)]
        rw [show dropThroughFirst sep (c :: cs) = List.drop sep.length (c :: cs) from by
          simp only [dropThroughFirst]; rw [if_pos hsw]]
        simp
      · rw [if_neg hsw]
        have hsub2 : hasSubL sep cs = true := by
          rw [hasSubL_cons] at hsub
          rcases Bool.or_eq_true_iff.mp hsub with h | h
          · exact absurd h hsw
          · exact h
        rw [ih cs (c :: acc) (by omega) hsub2]
        congr 1
        simp only [dropThroughFirst]
        rw [if_neg hsw]

/-- The split-join composite `''.join(s.split(sep)[1:])` in closed form: empty
when `sep` does not occur in `s`, otherwise everything after the first `sep`
occurrence with every later occurrence deleted. -/
theorem splitJoinTail_eq {sep : List Char} (hsep : sep ≠ []) (s : List Char) :
    ((pySplit sep s).tail).flatten =
      if hasSubL sep s = true then removeAllSep sep (dropThroughFirst sep s) else [] := by
  by_cases h : hasSubL sep s = true
  · rw [if_pos h, pySplit]
    exact pySplitAux_tail_flatten hsep s.length s [] le_rfl h
  · have h2 : hasSubL sep s = false := by
      cases hb : hasSubL sep s with
      | false => rfl
      | true => exact absurd hb h
    rw [if_neg h, pySplit, pySplitAux_no_sub sep s.length s [] le_rfl h2]
    rfl

/-- Closed form of `prs1` (source line 62): a key without the substring
`"encoder"` is unchanged; a key containing `"encoder"` but not `"encoder."`
becomes empty; otherwise everything up to and including the first
`"encoder."` occurrence is stripped and every later occurrence of
`"encoder."` is deleted. -/
theorem prs1L_eq (t : List Char) :
    prs1L t =
      if hasSubL "encoder".data t = false then t
      else if hasSubL "encoder.".data t = false then []
      else removeAllSep "encoder.".data (dropThroughFirst "encoder.".data t) := by
  by_cases hg : hasSubL "encoder".data t = true
  · rw [prs1L, if_pos hg, splitJoinTail_eq (by decide) t,
      if_neg (show ¬ hasSubL "encoder".data t = false from by rw [hg]; decide)]
    by_cases hd : hasSubL "encoder.".data t = true
    · rw [if_pos hd,
        if_neg (show ¬ hasSubL "encoder.".data t = false from by rw [hd]; decide)]
    · have hd2 : hasSubL "encoder.".data t = false := by
        cases hb : hasSubL "encoder.".data t with
        | false => rfl
        | true => exact absurd hb hd
      rw [if_neg hd, if_pos hd2]
  · have hg2 : hasSubL "encoder".data t = false := by
      cases hb : hasSubL "encoder".data t with
      | false => rfl
      | true => exact absurd hb hg
    rw [prs1L, if_neg hg, if_pos hg2]

/-- Closed form of `prs2` (source line 63), as for `prs1`. -/
theorem prs2L_eq (t : List Char) :
    prs2L t =
      if hasSubL "sentence_encoder".data t = false then t
      else if hasSubL "sentence_encoder.".data t = false then []
      else removeAllSep "sentence_encoder.".data
        (dropThroughFirst "sentence_encoder.".data t) := by
  by_cases hg : hasSubL "sentence_encoder".data t = true
  · rw [prs2L, if_pos hg, splitJoinTail_eq (by decide) t,
      if_neg (show ¬ hasSubL "sentence_encoder".data t = false from by rw [hg]; decide)]
    by_cases hd : hasSubL "sentence_encoder.".data t = true
    · rw [if_pos hd,
        if_neg (show ¬ hasSubL "sentence_encoder.".data t = false from by rw [hd]; decide)]
    · have hd2 : hasSubL "sentence_encoder.".data t = false := by
        cases hb : hasSubL "sentence_encoder.".data t with
        | false => rfl
        | true => exact absurd hb hd
      rw [if_neg hd, if_pos hd2]
  · have hg2 : hasSubL "sentence_encoder".data t = false := by
      cases hb : hasSubL "sentence_encoder".data t with
      | false => rfl
      | true => exact absurd hb hg
    rw [prs2L, if_neg hg, if_pos hg2]


/-! ## Lemmas about the Convention C row/column swap -/

theorem sw_row_eq (c1 c2 c3 : Char) (rest : List Char) :
    startsWithL rowChars (c1 :: c2 :: c3 :: rest) = true ↔ ('r' = c1 ∧ 'o' = c2 ∧ 'w' = c3) := by
  simp [rowChars, startsWithL, and_assoc]

theorem sw_col_eq (c1 c2 c3 c4 c5 c6 : Char) (rest : List Char) :
    startsWithL colChars (c1 :: c2 :: c3 :: c4 :: c5 :: c6 :: rest) = true ↔
      ('c' = c1 ∧ 'o' = c2 ∧ 'l' = c3 ∧ 'u' = c4 ∧ 'm' = c5 ∧ 'n' = c6) := by
  simp [colChars, startsWithL, and_assoc]

theorem rowToCol_block (t : List Char) :
    rowToCol ('r' :: 'o' :: 'w' :: t) = 'c' :: 'o' :: 'l' :: 'u' :: 'm' :: 'n' :: rowToCol t := by
  rw [rowToCol.eq_2, if_pos ⟨rfl, rfl, rfl⟩]

theorem rowToCol_cons_not_sw {c : Char} {cs : List Char}
    (h : startsWithL rowChars (c :: cs) ≠ true) :
    rowToCol (c :: cs) = c :: rowToCol cs := by
  cases cs with
  | nil => exact rowToCol.eq_3 c [] (by intro _ _ _ hx; cases hx)
  | cons d ds =>
    cases ds with
    | nil => exact rowToCol.eq_3 c [d] (by intro _ _ _ hx; cases hx)
    | cons e es =>
      rw [rowToCol.eq_2, if_neg (fun hc => h ((sw_row_eq c d e es).mpr hc))]

theorem colToRow_block (t : List Char) :
    colToRow ('c' :: 'o' :: 'l' :: 'u' :: 'm' :: 'n' :: t) = 'r' :: 'o' :: 'w' :: colToRow t := by
  rw [colToRow.eq_2, if_pos ⟨rfl, rfl, rfl, rfl, rfl, rfl⟩]

theorem colToRow_cons_not_sw {c : Char} {cs : List Char}
    (h : startsWithL colChars (c :: cs) ≠ true) :
    colToRow (c :: cs) = c :: colToRow cs := by
  cases cs with
  | nil => exact colToRow.eq_3 c [] (by intro _ _ _ _ _ _ hx; cases hx)
  | cons d1 ds1 =>
    cases ds1 with
    | nil => exact colToRow.eq_3 c [d1] (by intro _ _ _ _ _ _ hx; cases hx)
    | cons d2 ds2 =>
      cases ds2 with
      | nil => exact colToRow.eq_3 c [d1, d2] (by intro _ _ _ _ _ _ hx; cases hx)
      | cons d3 ds3 =>
        cases ds3 with
        | nil => exact colToRow.eq_3 c [d1, d2, d3] (by intro _ _ _ _ _ _ hx; cases hx)
        | cons d4 ds4 =>
          cases ds4 with
          | nil => exact colToRow.eq_3 c [d1, d2, d3, d4] (by intro _ _ _ _ _ _ hx; cases hx)
          | cons d5 ds5 =>
            rw [colToRow.eq_2, if_neg (fun hc => h ((sw_col_eq c d1 d2 d3 d4 d5 ds5).mpr hc))]

/-- A pattern whose characters all differ from the head `'c'` of the inserted
replacement block can only be a prefix of `rowToCol t` if it already was a
prefix of `t`. -/
theorem startsWithL_rowToCol {t : List Char} :
    ∀ w : List Char, (∀ a ∈ w, a ≠ 'c') →
      startsWithL w (rowToCol t) = true → startsWithL w t = true := by
  induction t using rowToCol.induct with
  | case1 =>
    intro w _ h
    simpa [rowToCol] using h
  | case2 c1 c2 c3 rest hc ih =>
    obtain ⟨rfl, rfl, rfl⟩ := hc
    intro w hw h
    cases w with
    | nil => rfl
    | cons a w2 =>
      rw [rowToCol_block, startsWithL] at h
      simp only [Bool.and_eq_true, beq_iff_eq] at h
      exact absurd h.1 (hw a (List.mem_cons_self a w2))
  | case3 c1 c2 c3 rest hc ih =>
    intro w hw h
    rw [rowToCol_cons_not_sw (fun hsw => hc ((sw_row_eq c1 c2 c3 rest).mp hsw))] at h
    cases w with
    | nil => rfl
    | cons a w2 =>
      rw [startsWithL] at h ⊢
      simp only [Bool.and_eq_true] at h ⊢
      exact ⟨h.1, ih w2 (fun x hx => hw x (List.mem_cons_of_mem a hx)) h.2⟩
  | case4 c1 cs hshape ih =>
    intro w hw h
    have hsw : startsWithL rowChars (c1 :: cs) ≠ true := by
      intro hsw
      rcases (startsWithL_iff _ _).mp hsw with ⟨t2, ht⟩
      simp only [rowChars, List.cons_append, List.cons.injEq] at ht
      exact hshape 'o' 'w' t2 ht.2
    rw [rowToCol_cons_not_sw hsw] at h
    cases w with
    | nil => rfl
    | cons a w2 =>
      rw [startsWithL] at h ⊢
      simp only [Bool.and_eq_true] at h ⊢
      exact ⟨h.1, ih w2 (fun x hx => hw x (List.mem_cons_of_mem a hx)) h.2⟩

/-- Mirror image of `startsWithL_rowToCol` for `colToRow` (block head `'r'`). -/
theorem startsWithL_colToRow {t : List Char} :
    ∀ w : List Char, (∀ a ∈ w, a ≠ 'r') →
      startsWithL w (colToRow t) = true → startsWithL w t = true := by
  induction t using colToRow.induct with
  | case1 =>
    intro w _ h
    simpa [colToRow] using h
  | case2 c1 c2 c3 c4 c5 c6 rest hc ih =>
    obtain ⟨rfl, rfl, rfl, rfl, rfl, rfl⟩ := hc
    intro w hw h
    cases w with
    | nil => rfl
    | cons a w2 =>
      rw [colToRow_block, startsWithL] at h
      simp only [Bool.and_eq_true, beq_iff_eq] at h
      exact absurd h.1 (hw a (List.mem_cons_self a w2))
  | case3 c1 c2 c3 c4 c5 c6 rest hc ih =>
    intro w hw h
    rw [colToRow_cons_not_sw (fun hsw => hc ((sw_col_eq c1 c2 c3 c4 c5 c6 rest).mp hsw))] at h
    cases w with
    | nil => rfl
    | cons a w2 =>
      rw [startsWithL] at h ⊢
      simp only [Bool.and_eq_true] at h ⊢
      exact ⟨h.1, ih w2 (fun x hx => hw x (List.mem_cons_of_mem a hx)) h.2⟩
  | case4 c1 cs hshape ih =>
    intro w hw h
    have hsw : startsWithL colChars (c1 :: cs) ≠ true := by
      intro hsw
      rcases (startsWithL_iff _ _).mp hsw with ⟨t2, ht⟩
      simp only [colChars, List.cons_append, List.cons.injEq] at ht
      exact hshape 'o' 'l' 'u' 'm' 'n' t2 ht.2
    rw [colToRow_cons_not_sw hsw] at h
    cases w with
    | nil => rfl
    | cons a w2 =>
      rw [startsWithL] at h ⊢
      simp only [Bool.and_eq_true] at h ⊢
      exact ⟨h.1, ih w2 (fun x hx => hw x (List.mem_cons_of_mem a hx)) h.2⟩


theorem hasSubL_cons_false {p : List Char} {a : Char} {t : List Char}
    (h : hasSubL p (a :: t) = false) : hasSubL p t = false := by
  rw [hasSubL_cons] at h
  exact (Bool.or_eq_false_iff.mp h).2

theorem hasSubL_row_cons_ne {a : Char} (t : List Char) (ha : a ≠ 'r') :
    hasSubL rowChars (a :: t) = hasSubL rowChars t := by
  rw [hasSubL_cons]
  have h1 : startsWithL rowChars (a :: t) = false := by
    simp only [rowChars, startsWithL, Bool.and_eq_true]
    simp [Ne.symm ha]
  rw [h1, Bool.false_or]

theorem sw_row_shape_false {c1 : Char} {cs : List Char}
    (hshape : ∀ (c2 c3 : Char) (rest : List Char), cs = c2 :: c3 :: rest → False) :
    startsWithL rowChars (c1 :: cs) ≠ true := by
  intro hsw
  rcases (startsWithL_iff _ _).mp hsw with ⟨t2, ht⟩
  simp only [rowChars, List.cons_append, List.cons.injEq] at ht
  exact hshape 'o' 'w' t2 ht.2

theorem sw_col_shape_false {c1 : Char} {cs : List Char}
    (hshape : ∀ (c2 c3 c4 c5 c6 : Char) (rest : List Char),
      cs = c2 :: c3 :: c4 :: c5 :: c6 :: rest → False) :
    startsWithL colChars (c1 :: cs) ≠ true := by
  intro hsw
  rcases (startsWithL_iff _ _).mp hsw with ⟨t2, ht⟩
  simp only [colChars, List.cons_append, List.cons.injEq] at ht
  exact hshape 'o' 'l' 'u' 'm' 'n' t2 ht.2

/-- Replacing every `"row"` by `"column"` leaves no `"row"` occurrence behind:
leftover characters never spell `"row"` (the scan would have replaced it) and
the inserted blocks cannot take part in one (no block character equals `'r'`,
and a prefix `"ow"` of a block head is impossible since blocks start with `'c'`). -/
theorem hasSubL_row_rowToCol : ∀ s : List Char, hasSubL rowChars (rowToCol s) = false := by
  intro s
  induction s using rowToCol.induct with
  | case1 => decide
  | case2 c1 c2 c3 rest hc ih =>
    obtain ⟨rfl, rfl, rfl⟩ := hc
    rw [rowToCol_block]
    rw [hasSubL_row_cons_ne _ (by decide), hasSubL_row_cons_ne _ (by decide),
      hasSubL_row_cons_ne _ (by decide), hasSubL_row_cons_ne _ (by decide),
      hasSubL_row_cons_ne _ (by decide), hasSubL_row_cons_ne _ (by decide)]
    exact ih
  | case3 c1 c2 c3 rest hc ih =>
    rw [rowToCol_cons_not_sw (fun hsw => hc ((sw_row_eq c1 c2 c3 rest).mp hsw))]
    rw [hasSubL_cons]
    have h1 : startsWithL rowChars (c1 :: rowToCol (c2 :: c3 :: rest)) = false := by
      cases hb : startsWithL rowChars (c1 :: rowToCol (c2 :: c3 :: rest)) with
      | false => rfl
      | true =>
        exfalso
        simp only [rowChars, startsWithL, Bool.and_eq_true, beq_iff_eq] at hb
        obtain ⟨rfl, hb2⟩ := hb
        have h3 := startsWithL_rowToCol ['o', 'w'] (by decide) hb2
        simp only [startsWithL, Bool.and_eq_true, beq_iff_eq, and_true] at h3
        exact hc ⟨rfl, h3.1, h3.2⟩
    rw [h1, Bool.false_or]
    exact ih
  | case4 c1 cs hshape ih =>
    rw [rowToCol_cons_not_sw (sw_row_shape_false hshape)]
    rw [hasSubL_cons]
    have h1 : startsWithL rowChars (c1 :: rowToCol cs) = false := by
      cases hb : startsWithL rowChars (c1 :: rowToCol cs) with
      | false => rfl
      | true =>
        exfalso
        simp only [rowChars, startsWithL, Bool.and_eq_true, beq_iff_eq] at hb
        obtain ⟨rfl, hb2⟩ := hb
        have h3 := startsWithL_rowToCol ['o', 'w'] (by decide) hb2
        rcases (startsWithL_iff _ _).mp h3 with ⟨t2, ht⟩
        exact hshape 'o' 'w' t2 (by simpa using ht)
    rw [h1, Bool.false_or]
    exact ih

/-- If `s` contains `"column"`, then `colToRow s` contains `"row"`. -/
theorem hasSubL_row_colToRow : ∀ s : List Char,
    hasSubL colChars s = true → hasSubL rowChars (colToRow s) = true := by
  intro s
  induction s using colToRow.induct with
  | case1 => intro h; exact absurd h (by decide)
  | case2 c1 c2 c3 c4 c5 c6 rest hc ih =>
    obtain ⟨rfl, rfl, rfl, rfl, rfl, rfl⟩ := hc
    intro _
    rw [colToRow_block, hasSubL_cons,
      (sw_row_eq 'r' 'o' 'w' (colToRow rest)).mpr ⟨rfl, rfl, rfl⟩, Bool.true_or]
  | case3 c1 c2 c3 c4 c5 c6 rest hc ih =>
    intro h
    have h1 : startsWithL colChars (c1 :: c2 :: c3 :: c4 :: c5 :: c6 :: rest) = false := by
      cases hb : startsWithL colChars (c1 :: c2 :: c3 :: c4 :: c5 :: c6 :: rest) with
      | false => rfl
      | true => exact absurd ((sw_col_eq c1 c2 c3 c4 c5 c6 rest).mp hb) hc
    rw [hasSubL_cons, h1, Bool.false_or] at h
    rw [colToRow_cons_not_sw (fun hsw => hc ((sw_col_eq c1 c2 c3 c4 c5 c6 rest).mp hsw)),
      hasSubL_cons, ih h, Bool.or_true]
  | case4 c1 cs hshape ih =>
    intro h
    have h1 : startsWithL colChars (c1 :: cs) = false := by
      cases hb : startsWithL colChars (c1 :: cs) with
      | false => rfl
      | true => exact absurd hb (sw_col_shape_false hshape)
    rw [hasSubL_cons, h1, Bool.false_or] at h
    rw [colToRow_cons_not_sw (sw_col_shape_false hshape), hasSubL_cons, ih h, Bool.or_true]

/-- Round trip: on a `"column"`-free string, `colToRow` undoes `rowToCol`. -/
theorem colToRow_rowToCol : ∀ s : List Char,
    hasSubL colChars s = false → colToRow (rowToCol s) = s := by
  intro s
  induction s using rowToCol.induct with
  | case1 => intro _; rfl
  | case2 c1 c2 c3 rest hc ih =>
    obtain ⟨rfl, rfl, rfl⟩ := hc
    intro h
    rw [rowToCol_block, colToRow_block,
      ih (hasSubL_cons_false (hasSubL_cons_false (hasSubL_cons_false h)))]
  | case3 c1 c2 c3 rest hc ih =>
    intro h
    rw [rowToCol_cons_not_sw (fun hsw => hc ((sw_row_eq c1 c2 c3 rest).mp hsw))]
    have h1 : startsWithL colChars (c1 :: rowToCol (c2 :: c3 :: rest)) ≠ true := by
      intro hb
      simp only [colChars, startsWithL, Bool.and_eq_true, beq_iff_eq] at hb
      obtain ⟨rfl, hb2⟩ := hb
      have h3 := startsWithL_rowToCol ['o', 'l', 'u', 'm', 'n'] (by decide) hb2
      have h4 : startsWithL colChars ('c' :: c2 :: c3 :: rest) = true := by
        simpa [colChars, startsWithL] using h3
      rw [hasSubL_cons, h4, Bool.true_or] at h
      exact absurd h (by decide)
    rw [colToRow_cons_not_sw h1, ih (hasSubL_cons_false h)]
  | case4 c1 cs hshape ih =>
    intro h
    rw [rowToCol_cons_not_sw (sw_row_shape_false hshape)]
    have h1 : startsWithL colChars (c1 :: rowToCol cs) ≠ true := by
      intro hb
      simp only [colChars, startsWithL, Bool.and_eq_true, beq_iff_eq] at hb
      obtain ⟨rfl, hb2⟩ := hb
      have h3 := startsWithL_rowToCol ['o', 'l', 'u', 'm', 'n'] (by decide) hb2
      have h4 : startsWithL colChars ('c' :: cs) = true := by
        simpa [colChars, startsWithL] using h3
      rw [hasSubL_cons, h4, Bool.true_or] at h
      exact absurd h (by decide)
    rw [colToRow_cons_not_sw h1, ih (hasSubL_cons_false h)]

/-- Round trip: on a `"row"`-free string, `rowToCol` undoes `colToRow`. -/
theorem rowToCol_colToRow : ∀ s : List Char,
    hasSubL rowChars s = false → rowToCol (colToRow s) = s := by
  intro s
  induction s using colToRow.induct with
  | case1 => intro _; rfl
  | case2 c1 c2 c3 c4 c5 c6 rest hc ih =>
    obtain ⟨rfl, rfl, rfl, rfl, rfl, rfl⟩ := hc
    intro h
    rw [colToRow_block, rowToCol_block,
      ih (hasSubL_cons_false (hasSubL_cons_false (hasSubL_cons_false
        (hasSubL_cons_false (hasSubL_cons_false (hasSubL_cons_false h))))))]
  | case3 c1 c2 c3 c4 c5 c6 rest hc ih =>
    intro h
    rw [colToRow_cons_not_sw (fun hsw => hc ((sw_col_eq c1 c2 c3 c4 c5 c6 rest).mp hsw))]
    have h1 : startsWithL rowChars (c1 :: colToRow (c2 :: c3 :: c4 :: c5 :: c6 :: rest)) ≠ true := by
      intro hb
      simp only [rowChars, startsWithL, Bool.and_eq_true, beq_iff_eq] at hb
      obtain ⟨rfl, hb2⟩ := hb
      have h3 := startsWithL_colToRow ['o', 'w'] (by decide) hb2
      have h4 : startsWithL rowChars ('r' :: c2 :: c3 :: c4 :: c5 :: c6 :: rest) = true := by
        simpa [rowChars, startsWithL] using h3
      rw [hasSubL_cons, h4, Bool.true_or] at h
      exact absurd h (by decide)
    rw [rowToCol_cons_not_sw h1, ih (hasSubL_cons_false h)]
  | case4 c1 cs hshape ih =>
    intro h
    rw [colToRow_cons_not_sw (sw_col_shape_false hshape)]
    have h1 : startsWithL rowChars (c1 :: colToRow cs) ≠ true := by
      intro hb
      simp only [rowChars, startsWithL, Bool.and_eq_true, beq_iff_eq] at hb
      obtain ⟨rfl, hb2⟩ := hb
      have h3 := startsWithL_colToRow ['o', 'w'] (by decide) hb2
      have h4 : startsWithL rowChars ('r' :: cs) = true := by
        simpa [rowChars, startsWithL] using h3
      rw [hasSubL_cons, h4, Bool.true_or] at h
      exact absurd h (by decide)
    rw [rowToCol_cons_not_sw h1, ih (hasSubL_cons_false h)]

/-- The row/column swap is an involution on any string containing exactly one
of the two substrings. -/
theorem rcSwapL_invol {s : List Char}
    (h : (hasSubL rowChars s = true ∧ hasSubL colChars s = false) ∨
      (hasSubL colChars s = true ∧ hasSubL rowChars s = false)) :
    rcSwapL (rcSwapL s) = s := by
  rcases h with ⟨hr, hc⟩ | ⟨hc, hr⟩
  · have e1 : rcSwapL s = rowToCol s := by rw [rcSwapL, if_pos hr]
    rw [e1, rcSwapL,
      if_neg (by rw [hasSubL_row_rowToCol s]; exact Bool.false_ne_true)]
    exact colToRow_rowToCol s hc
  · have e1 : rcSwapL s = colToRow s := by
      rw [rcSwapL, if_neg (by rw [hr]; exact Bool.false_ne_true)]
    rw [e1, rcSwapL, if_pos (hasSubL_row_colToRow s hc)]
    exact rowToCol_colToRow s hr


/-! ## Lemmas about the dict model -/

theorem lookup_cons {β : Type} (k k1 : String) (v1 : β) (rest : List (String × β)) :
    List.lookup k ((k1, v1) :: rest) = if k = k1 then some v1 else List.lookup k rest := by
  by_cases h : k = k1
  · simp [List.lookup, h]
  · have hb : (k == k1) = false := beq_eq_false_iff_ne.mpr h
    simp [List.lookup, hb, h]

theorem setKey_lookup_self {β : Type} (d : List (String × β)) (k : String) (v : β) :
    (setKey d k v).lookup k = some v := by
  induction d with
  | nil => simp [setKey, lookup_cons]
  | cons kv rest ih =>
    obtain ⟨k1, v1⟩ := kv
    simp only [setKey]
    by_cases h : k1 = k
    · rw [if_pos h, lookup_cons, if_pos rfl]
    · rw [if_neg h, lookup_cons, if_neg (fun hh => h hh.symm)]
      exact ih

theorem setKey_lookup_ne {β : Type} (d : List (String × β)) (k k2 : String) (v : β)
    (h : k2 ≠ k) : (setKey d k v).lookup k2 = d.lookup k2 := by
  induction d with
  | nil =>
    simp only [setKey]
    rw [lookup_cons, if_neg h]
  | cons kv rest ih =>
    obtain ⟨k1, v1⟩ := kv
    simp only [setKey]
    by_cases h1 : k1 = k
    · subst h1
      rw [if_pos rfl, lookup_cons, if_neg h, lookup_cons, if_neg (fun hh => h (hh.trans rfl))]
    · rw [if_neg h1, lookup_cons, lookup_cons]
      by_cases h2 : k2 = k1
      · rw [if_pos h2, if_pos h2]
      · rw [if_neg h2, if_neg h2]
        exact ih

theorem lookup_eq_none_of_not_mem {β : Type} (d : List (String × β)) (k : String)
    (h : ¬ k ∈ d.map Prod.fst) : d.lookup k = none := by
  induction d with
  | nil => rfl
  | cons kv rest ih =>
    obtain ⟨k1, v1⟩ := kv
    simp only [List.map_cons, List.mem_cons] at h
    push_neg at h
    rw [lookup_cons, if_neg h.1]
    exact ih h.2

theorem dictUpdate_nil {β : Type} (d : List (String × β)) : dictUpdate d [] = d := rfl

theorem dictUpdate_cons {β : Type} (d : List (String × β)) (k : String) (v : β)
    (e : List (String × β)) :
    dictUpdate d ((k, v) :: e) = dictUpdate (setKey d k v) e := rfl

/-- Lookup in `dictUpdate d e` for a key not bound by `e` falls through to `d`. -/
theorem dictUpdate_lookup_not_mem {β : Type} (e : List (String × β)) :
    ∀ (d : List (String × β)) (k : String), ¬ k ∈ e.map Prod.fst →
      (dictUpdate d e).lookup k = d.lookup k := by
  induction e with
  | nil => intro d k _; rfl
  | cons kv rest ih =>
    intro d k h
    obtain ⟨k1, v1⟩ := kv
    simp only [List.map_cons, List.mem_cons] at h
    push_neg at h
    rw [dictUpdate_cons, ih (setKey d k1 v1) k h.2, setKey_lookup_ne d k1 k v1 h.1]

/-- Lookup in `dictUpdate d e` when the keys of `e` are unique: the update
wins exactly on the keys `e` binds. -/
theorem dictUpdate_lookup {β : Type} (e : List (String × β)) :
    ∀ (d : List (String × β)) (k : String), (e.map Prod.fst).Nodup →
      (dictUpdate d e).lookup k = overlayLookup d e k := by
  induction e with
  | nil => intro d k _; rfl
  | cons kv rest ih =>
    intro d k hnd
    obtain ⟨k1, v1⟩ := kv
    simp only [List.map_cons, List.nodup_cons] at hnd
    rw [dictUpdate_cons, ih (setKey d k1 v1) k hnd.2]
    rw [overlayLookup, overlayLookup, lookup_cons]
    by_cases h : k = k1
    · subst h
      rw [if_pos rfl, lookup_eq_none_of_not_mem rest k hnd.1]
      simp [setKey_lookup_self d k v1]
    · rw [if_neg h]
      cases h2 : rest.lookup k with
      | some v => simp [h2]
      | none => simp [h2, setKey_lookup_ne d k1 k v1 h]

/-- Every value that appears after `setKey` is either the inserted value or a
value of the original dict. -/
theorem values_setKey {β : Type} (d : List (String × β)) (k : String) (v : β) :
    ∀ x ∈ (setKey d k v).map Prod.snd, x = v ∨ x ∈ d.map Prod.snd := by
  induction d with
  | nil => intro x hx; simp only [setKey, List.map_cons, List.map_nil] at hx; simp at hx; exact Or.inl hx
  | cons kv rest ih =>
    intro x hx
    obtain ⟨k1, v1⟩ := kv
    simp only [setKey] at hx
    by_cases h : k1 = k
    · rw [if_pos h] at hx
      simp only [List.map_cons, List.mem_cons] at hx
      rcases hx with hx | hx
      · exact Or.inl hx
      · exact Or.inr (by simp [hx])
    · rw [if_neg h] at hx
      simp only [List.map_cons, List.mem_cons] at hx
      rcases hx with hx | hx
      · exact Or.inr (by simp [hx])
      · rcases ih x hx with hv | hv
        · exact Or.inl hv
        · exact Or.inr (by simp [hv])

/-- Every value of a rewritten dict (`dictComp`) is a value of the input:
re-keying never touches the blobs. -/
theorem dictComp_values {β : Type} (f : String → String) (ps : List (String × β)) :
    ∀ kv ∈ dictComp f ps, kv.2 ∈ ps.map Prod.snd := by
  have main : ∀ (l acc : List (String × β)) (kv : String × β),
      kv ∈ l.foldl (fun a kv2 => setKey a (f kv2.1) kv2.2) acc →
      kv.2 ∈ acc.map Prod.snd ∨ kv.2 ∈ l.map Prod.snd := by
    intro l
    induction l with
    | nil => intro acc kv h; exact Or.inl (List.mem_map_of_mem Prod.snd h)
    | cons p rest ih =>
      intro acc kv h
      rw [List.foldl_cons] at h
      rcases ih (setKey acc (f p.1) p.2) kv h with hv | hv
      · rcases values_setKey acc (f p.1) p.2 kv.2 hv with hv2 | hv2
        · exact Or.inr (by simp [hv2])
        · exact Or.inl hv2
      · exact Or.inr (by simp [List.mem_cons_of_mem, hv])
  intro kv h
  rcases main ps [] kv h with hv | hv
  · simp at hv
  · exact hv


/-! ## Lemmas about set membership and the validator -/

theorem containsL_iff {l : List String} {a : String} : l.contains a = true ↔ a ∈ l := by
  rw [List.contains, List.elem_eq_mem, decide_eq_true_iff]

theorem containsL_false_iff {l : List String} {a : String} : l.contains a = false ↔ ¬ a ∈ l := by
  rw [List.contains, List.elem_eq_mem, decide_eq_false_iff_not]

theorem mem_missingPost {e f : List String} {k : String} :
    k ∈ missingPost e f ↔ k ∈ e ∧ ¬ k ∈ f ∧ ¬ k ∈ exemptionKeys := by
  simp only [missingPost, List.mem_filter, Bool.not_eq_true', containsL_false_iff, and_assoc]

theorem mem_unexpectedOf {e f : List String} {k : String} :
    k ∈ unexpectedOf e f ↔ k ∈ f ∧ ¬ k ∈ e := by
  simp only [unexpectedOf, List.mem_filter, Bool.not_eq_true', containsL_false_iff]

theorem filter_not_contains_ne_nil_iff (l f : List String) :
    l.filter (fun k => !f.contains k) ≠ [] ↔ ∃ k ∈ l, ¬ k ∈ f := by
  rw [Ne, List.filter_eq_nil_iff]
  push_neg
  simp only [Bool.not_eq_true', containsL_false_iff]

theorem validateCore_true (e f : List String) :
    validateCore e f true = ⟨[], [], Status.Complete⟩ := rfl

theorem validateCore_false_missing (e f : List String) :
    (validateCore e f false).missing = missingPost e f := by
  rw [validateCore, if_neg (by decide)]
  split
  · rfl
  · split <;> rfl

theorem validateCore_false_unexpected (e f : List String) :
    (validateCore e f false).unexpected = unexpectedOf e f := by
  rw [validateCore, if_neg (by decide)]
  split
  · rfl
  · split <;> rfl

theorem validateCore_false_status_error (e f : List String)
    (h : missingPost e f ≠ [] ∨ unexpectedOf e f ≠ []) :
    (validateCore e f false).status = Status.Error := by
  rw [validateCore, if_neg (by decide), if_pos h]

theorem validateCore_false_status_warn (e f : List String)
    (h : ¬ (missingPost e f ≠ [] ∨ unexpectedOf e f ≠ []))
    (h2 : exemptionKeys.filter (fun k => !f.contains k) ≠ []) :
    (validateCore e f false).status = Status.MissingRegressionOnly := by
  rw [validateCore, if_neg (by decide), if_neg h, if_pos h2]

theorem validateCore_false_status_complete (e f : List String)
    (h : ¬ (missingPost e f ≠ [] ∨ unexpectedOf e f ≠ []))
    (h2 : ¬ exemptionKeys.filter (fun k => !f.contains k) ≠ []) :
    (validateCore e f false).status = Status.Complete := by
  rw [validateCore, if_neg (by decide), if_neg h, if_neg h2]

theorem validateCore_false_status_error_iff (e f : List String) :
    (validateCore e f false).status = Status.Error ↔
      (missingPost e f ≠ [] ∨ unexpectedOf e f ≠ []) := by
  constructor
  · intro h
    by_contra hc
    by_cases h2 : exemptionKeys.filter (fun k => !f.contains k) ≠ []
    · rw [validateCore_false_status_warn e f hc h2] at h
      cases h
    · rw [validateCore_false_status_complete e f hc h2] at h
      cases h
  · exact validateCore_false_status_error e f


/-! ## Lemmas about merge and dispatch -/

theorem mergeStep_none (md : Checkpoint) : mergeStep md none = md := rfl

theorem mergeStep_some (md r : Checkpoint) :
    mergeStep md (some r) = { md with params := dictUpdate md.params r.params } := rfl

theorem mergeStep_arch (md : Checkpoint) (rd : Option Checkpoint) :
    (mergeStep md rd).arch = md.arch := by cases rd <;> rfl

theorem mergeStep_config (md : Checkpoint) (rd : Option Checkpoint) :
    (mergeStep md rd).config = md.config := by cases rd <;> rfl

theorem archDispatch_roberta {md : Checkpoint} (h : md.arch = "roberta_large") (i : Nat) :
    archDispatch md i = (maskZeroStep i (dictComp rewriteAS md.params)).map
      (fun ms => (ms, dictComp praAS md.config)) := by
  rw [archDispatch, if_pos h]

theorem archDispatch_bert {md : Checkpoint} (h : md.arch = "protein_bert_base") (i : Nat) :
    archDispatch md i = Except.ok (dictComp rewriteBS md.params, dictComp praBS md.config) := by
  rw [archDispatch, if_neg (by rw [h]; decide), if_pos h]

theorem archDispatch_msa {md : Checkpoint} (h : md.arch = "msa_transformer") (i : Nat) :
    archDispatch md i = Except.ok (dictComp rewriteCS md.params, dictComp praAS md.config) := by
  rw [archDispatch, if_neg (by rw [h]; decide), if_neg (by rw [h]; decide), if_pos h]

theorem archDispatch_unknown {md : Checkpoint} (h1 : md.arch ≠ "roberta_large")
    (h2 : md.arch ≠ "protein_bert_base") (h3 : md.arch ≠ "msa_transformer") (i : Nat) :
    archDispatch md i = Except.error LoadErr.unknownArch := by
  rw [archDispatch, if_neg h1, if_neg h2, if_neg h3]

theorem loadCore_eq (md : Checkpoint) (rd : Option Checkpoint) (i : Nat) (ek : List String) :
    loadCore md rd i ek =
      match archDispatch (mergeStep md rd) i with
      | Except.error e => (Except.error e, mergeStep md rd)
      | Except.ok (ms, margs) =>
        match (validateCore ek (ms.map Prod.fst) rd.isSome).status with
        | Status.Error =>
          (Except.error (LoadErr.schemaMismatch
            (validateCore ek (ms.map Prod.fst) rd.isSome).missing
            (validateCore ek (ms.map Prod.fst) rd.isSome).unexpected), mergeStep md rd)
        | st =>
          match assignParams ek (ms.map Prod.fst) rd.isSome with
          | Except.error mu => (Except.error (LoadErr.assignError mu.1 mu.2), mergeStep md rd)
          | Except.ok _ =>
            (Except.ok ⟨ms, margs, decide (st = Status.MissingRegressionOnly)⟩, mergeStep md rd) :=
  rfl


theorem assignParams_nonstrict (e f : List String) : assignParams e f false = Except.ok () := rfl

/-- Full characterization of an auxiliary-absent load once dispatch succeeded:
the load fails with `SchemaMismatchError` iff the post-exemption missing set or
the unexpected set is nonempty, and otherwise succeeds, warning exactly when
one of the two regression keys is absent from the found set. -/
theorem loadCore_none_validated {md : Checkpoint} {i : Nat} {ek : List String} {ms : Params}
    {margs : List (String × Int)} (h : archDispatch md i = Except.ok (ms, margs)) :
    loadCore md none i ek =
      if missingPost ek (ms.map Prod.fst) ≠ [] ∨ unexpectedOf ek (ms.map Prod.fst) ≠ [] then
        (Except.error (LoadErr.schemaMismatch (missingPost ek (ms.map Prod.fst))
          (unexpectedOf ek (ms.map Prod.fst))), md)
      else (Except.ok ⟨ms, margs,
        decide (exemptionKeys.filter (fun k => !(ms.map Prod.fst).contains k) ≠ [])⟩, md) := by
  rw [loadCore_eq]
  simp only [mergeStep_none, h, Option.isSome_none]
  by_cases hc : missingPost ek (ms.map Prod.fst) ≠ [] ∨ unexpectedOf ek (ms.map Prod.fst) ≠ []
  · rw [if_pos hc, validateCore_false_status_error _ _ hc]
    simp only [validateCore_false_missing, validateCore_false_unexpected]
  · rw [if_neg hc]
    by_cases h2 : exemptionKeys.filter (fun k => !(ms.map Prod.fst).contains k) ≠ []
    · rw [validateCore_false_status_warn _ _ hc h2, decide_eq_true h2]
      rfl
    · rw [validateCore_false_status_complete _ _ hc h2, decide_eq_false h2]
      rfl

/-- With an auxiliary checkpoint present and dispatch succeeded, no in-core
validation happens: the outcome is decided by the strict assignment alone. -/
theorem loadCore_some_strict {md r : Checkpoint} {i : Nat} {ek : List String} {ms : Params}
    {margs : List (String × Int)}
    (h : archDispatch (mergeStep md (some r)) i = Except.ok (ms, margs)) :
    loadCore md (some r) i ek =
      (match assignParams ek (ms.map Prod.fst) true with
       | Except.error mu => Except.error (LoadErr.assignError mu.1 mu.2)
       | Except.ok _ => Except.ok ⟨ms, margs, false⟩, mergeStep md (some r)) := by
  rw [loadCore_eq]
  simp only [h, Option.isSome_some]
  rw [validateCore_true]
  cases ha : assignParams ek (ms.map Prod.fst) true with
  | error mu => simp [ha]
  | ok u => simp [ha]


/-! ## Claim theorems -/

/-- C1: when the auxiliary checkpoint is absent, validation computes
`missing = (expected − found) − {contact_head.regression.weight,
contact_head.regression.bias}` and `unexpected = found − expected`; the load
fails with a fatal error if and only if post-exemption `missing` or
`unexpected` is nonempty, the error carrying both sets; in particular
`expected = {x, y, contact_head.regression.weight, contact_head.regression.bias}`,
`found = {x}` yields an `Error` with `missing = {y}`. -/
theorem claim1_validator : ∀ e f : List String,
    ((validateCore e f false).status = Status.Error ↔
      (missingPost e f ≠ [] ∨ unexpectedOf e f ≠ []))
  ∧ (validateCore e f false).missing = missingPost e f
  ∧ (validateCore e f false).unexpected = unexpectedOf e f
  ∧ (∀ k, k ∈ missingPost e f ↔ k ∈ e ∧ ¬ k ∈ f ∧ ¬ k ∈ exemptionKeys)
  ∧ (∀ k, k ∈ unexpectedOf e f ↔ k ∈ f ∧ ¬ k ∈ e)
  ∧ (∀ (md : Checkpoint) (i : Nat) (ms : Params) (margs : List (String × Int)),
      archDispatch md i = Except.ok (ms, margs) →
      ((loadCore md none i e).1 = Except.error
          (LoadErr.schemaMismatch (missingPost e (ms.map Prod.fst))
            (unexpectedOf e (ms.map Prod.fst)))
        ↔ (missingPost e (ms.map Prod.fst) ≠ [] ∨ unexpectedOf e (ms.map Prod.fst) ≠ [])))
  ∧ validateCore ["x", "y", "contact_head.regression.weight",
      "contact_head.regression.bias"] ["x"] false = ⟨["y"], [], Status.Error⟩ := by
  intro e f
  refine ⟨validateCore_false_status_error_iff e f, validateCore_false_missing e f,
    validateCore_false_unexpected e f, fun k => mem_missingPost, fun k => mem_unexpectedOf,
    ?_, by decide⟩
  intro md i ms margs h
  rw [loadCore_none_validated h]
  by_cases hc : missingPost e (ms.map Prod.fst) ≠ [] ∨ unexpectedOf e (ms.map Prod.fst) ≠ []
  · rw [if_pos hc]
    exact iff_of_true rfl hc
  · rw [if_neg hc]
    exact iff_of_false (by simp) hc

/-- C1 witness: the load-level error equivalence applied at a concrete
dispatch-succeeding input. -/
theorem claim1_witness :
    ((loadCore cpRob none 0 ["embed_tokens.weight"]).1 = Except.error
        (LoadErr.schemaMismatch (missingPost ["embed_tokens.weight"] (msRob.map Prod.fst))
          (unexpectedOf ["embed_tokens.weight"] (msRob.map Prod.fst)))
      ↔ (missingPost ["embed_tokens.weight"] (msRob.map Prod.fst) ≠ [] ∨
          unexpectedOf ["embed_tokens.weight"] (msRob.map Prod.fst) ≠ [])) :=
  (claim1_validator ["embed_tokens.weight"] []).2.2.2.2.2.1 cpRob 0 msRob [] rfl

/-- C2 counterexample: with `expected = found = {x}` and no auxiliary
checkpoint, the code emits the regression warning (status
`MissingRegressionOnly`) although the exemption set is not a subset of the
pre-exemption missing set (which is empty), where the claim demands status
`Complete` with no warning. -/
theorem claim2_counterexample :
    (validateCore ["x"] ["x"] false).status = Status.MissingRegressionOnly ∧
    ¬ (∀ k ∈ exemptionKeys, k ∈ preMissing ["x"] ["x"]) := by decide

/-- C2 amended: when the auxiliary checkpoint is absent and the validator does
not report `Error`, the warning status `MissingRegressionOnly` is emitted iff
some key of the exemption set is absent from `found` (the code tests
`expected_missing - found_keys`, not a subset of the pre-exemption missing
set); otherwise the status is `Complete`. -/
theorem claim2_warning_iff : ∀ e f : List String,
    (validateCore e f false).status ≠ Status.Error →
    (((validateCore e f false).status = Status.MissingRegressionOnly ↔
        ∃ k ∈ exemptionKeys, ¬ k ∈ f)
  ∧ ((validateCore e f false).status = Status.Complete ↔ ∀ k ∈ exemptionKeys, k ∈ f)) := by
  intro e f h
  have hc : ¬ (missingPost e f ≠ [] ∨ unexpectedOf e f ≠ []) :=
    fun hcond => h (validateCore_false_status_error _ _ hcond)
  by_cases h2 : exemptionKeys.filter (fun k => !f.contains k) ≠ []
  · rw [validateCore_false_status_warn _ _ hc h2]
    refine ⟨iff_of_true rfl ((filter_not_contains_ne_nil_iff _ _).mp h2), iff_of_false (by decide) ?_⟩
    rcases (filter_not_contains_ne_nil_iff _ _).mp h2 with ⟨k, hk, hkf⟩
    exact fun hall => hkf (hall k hk)
  · rw [validateCore_false_status_complete _ _ hc h2]
    rw [filter_not_contains_ne_nil_iff] at h2
    push_neg at h2
    refine ⟨iff_of_false (by decide) ?_, iff_of_true rfl h2⟩
    push_neg
    exact h2

/-- C2 witness: the amended equivalence applied at `expected = found = {x}`. -/
theorem claim2_witness :
    ((validateCore ["x"] ["x"] false).status = Status.MissingRegressionOnly ↔
      ∃ k ∈ exemptionKeys, ¬ k ∈ (["x"] : List String)) ∧
    ((validateCore ["x"] ["x"] false).status = Status.Complete ↔
      ∀ k ∈ exemptionKeys, k ∈ (["x"] : List String)) :=
  claim2_warning_iff ["x"] ["x"] (by decide)

/-- C4 counterexample: with the auxiliary present, the validator block is
skipped entirely: on `expected = {x}`, `found = {x, z}` it reports `Complete`
with an empty unexpected set, not the `Error` with `unexpected = {z}` the
claim asserts. -/
theorem claim4_counterexample :
    validateCore ["x"] ["x", "z"] true = ⟨[], [], Status.Complete⟩ ∧
    (validateCore ["x"] ["x", "z"] true).status ≠ Status.Error ∧
    (validateCore ["x"] ["x", "z"] true).unexpected = [] := by decide

/-- C4 amended: when the auxiliary checkpoint is present the in-core validator
is skipped (it returns `Complete` with empty sets for all inputs); unexpected
keys are instead rejected at parameter assignment, which is strict exactly
when the auxiliary is present and succeeds iff there are no missing and no
unexpected keys; in particular `expected = {x}`, `found = {x, z}` fails at
assignment carrying `unexpected = {z}`. -/
theorem claim4_skipped_strict :
    (∀ e f : List String, validateCore e f true = ⟨[], [], Status.Complete⟩)
  ∧ (∀ e f : List String, assignParams e f true = Except.ok () ↔
      (e.filter (fun k => !f.contains k) = [] ∧ f.filter (fun k => !e.contains k) = []))
  ∧ (∀ (md r : Checkpoint) (i : Nat) (ek : List String) (ms : Params)
      (margs : List (String × Int)),
      archDispatch (mergeStep md (some r)) i = Except.ok (ms, margs) →
      loadCore md (some r) i ek =
        (match assignParams ek (ms.map Prod.fst) true with
         | Except.error mu => Except.error (LoadErr.assignError mu.1 mu.2)
         | Except.ok _ => Except.ok ⟨ms, margs, false⟩, mergeStep md (some r)))
  ∧ assignParams ["x"] ["x", "z"] true = Except.error ([], ["z"]) := by
  refine ⟨fun e f => validateCore_true e f, ?_, fun md r i ek ms margs h => loadCore_some_strict h,
    rfl⟩
  intro e f
  rw [assignParams, if_pos rfl]
  by_cases h : e.filter (fun k => !f.contains k) ≠ [] ∨ f.filter (fun k => !e.contains k) ≠ []
  · rw [if_pos h]
    refine iff_of_false (by simp) ?_
    rcases h with h | h
    · exact fun hand => h hand.1
    · exact fun hand => h hand.2
  · rw [if_neg h]
    push_neg at h
    exact iff_of_true rfl h

/-- C4 witness: a concrete auxiliary-present load decided by assignment. -/
theorem claim4_witness :
    loadCore cpRob (some cpAux) 0 ["x"] =
      (match assignParams ["x"]
          (([("embed_tokens.weight", ([0, 6] : Blob)), ("x", [7]), ("b", [9])] : Params).map
            Prod.fst) true with
       | Except.error mu => Except.error (LoadErr.assignError mu.1 mu.2)
       | Except.ok _ => Except.ok ⟨[("embed_tokens.weight", [0, 6]), ("x", [7]), ("b", [9])],
          [], false⟩, mergeStep cpRob (some cpAux)) :=
  claim4_skipped_strict.2.2.1 cpRob cpAux 0 ["x"]
    [("embed_tokens.weight", [0, 6]), ("x", [7]), ("b", [9])] [] rfl


/-- C3 counterexample: with an auxiliary checkpoint present and an unknown
architecture id, the load does fail with `UnknownArchitectureError`, but the
merge has already run: the primary checkpoint's parameters mapping has been
updated in place when the error is raised, where the claim asserts it is
unchanged and that merging never occurs. -/
theorem claim3_counterexample :
    (loadCore cpUnknown (some cpAux) 0 []).1 = Except.error LoadErr.unknownArch ∧
    (loadCore cpUnknown (some cpAux) 0 []).2.params ≠ cpUnknown.params :=
  ⟨rfl, by decide⟩

/-- C3 amended: for every architecture id outside the known set, the load
fails with `UnknownArchitectureError` and no rewriting occurs (the error is
raised at dispatch), but the merge step runs first: the primary's post-state
is the merged checkpoint, which is unchanged exactly when no auxiliary
checkpoint is present; with an auxiliary present the primary's parameters have
already been overwritten in place when the error is raised. -/
theorem claim3_unknown_arch :
    ∀ (md : Checkpoint) (rd : Option Checkpoint) (i : Nat) (ek : List String),
    ¬ md.arch ∈ (["roberta_large", "protein_bert_base", "msa_transformer"] : List String) →
    ((loadCore md rd i ek).1 = Except.error LoadErr.unknownArch
  ∧ (loadCore md rd i ek).2 = mergeStep md rd
  ∧ (rd = none → (loadCore md rd i ek).2 = md)
  ∧ (∀ r, rd = some r → (loadCore md rd i ek).2.params = dictUpdate md.params r.params)) := by
  intro md rd i ek h
  simp only [List.mem_cons, List.not_mem_nil, or_false, not_or] at h
  have hd : archDispatch (mergeStep md rd) i = Except.error LoadErr.unknownArch :=
    archDispatch_unknown (by rw [mergeStep_arch]; exact h.1)
      (by rw [mergeStep_arch]; exact h.2.1) (by rw [mergeStep_arch]; exact h.2.2) i
  have hres : loadCore md rd i ek = (Except.error LoadErr.unknownArch, mergeStep md rd) := by
    rw [loadCore_eq, hd]
  refine ⟨by rw [hres], by rw [hres], fun hnone => ?_, fun r hr => ?_⟩
  · rw [hres, hnone, mergeStep_none]
  · rw [hres, hr, mergeStep_some]

/-- C3 witness: with no auxiliary checkpoint, the unknown-architecture failure
leaves the primary checkpoint unchanged. -/
theorem claim3_witness :
    (loadCore cpUnknown none 0 []).1 = Except.error LoadErr.unknownArch ∧
    (loadCore cpUnknown none 0 []).2 = cpUnknown := by
  have h := claim3_unknown_arch cpUnknown none 0 [] (by decide)
  exact ⟨h.1, h.2.2.1 rfl⟩

/-- C5 counterexample: `"foo.encoder.bar"` matches neither the prefix
`"encoder."` nor `"sentence_encoder."`, yet the Convention A rewrite changes
it to `"bar"` (the code strips everything up to and including the first
occurrence of `"encoder."` anywhere in the key, guarded only by a substring
test), contradicting the claim that such keys are returned unchanged. -/
theorem claim5_counterexample :
    startsWithL "encoder.".data "foo.encoder.bar".data = false
  ∧ startsWithL "sentence_encoder.".data "foo.encoder.bar".data = false
  ∧ rewriteAS "foo.encoder.bar" = "bar"
  ∧ rewriteAS "foo.encoder.bar" ≠ "foo.encoder.bar" := by decide

/-- C5 amended: the Convention A parameter-key rewrite is the composition of
two split-join passes, each characterized in closed form: the
`"sentence_encoder."` pass leaves a key without the substring
`"sentence_encoder"` unchanged, maps a key containing `"sentence_encoder"`
but not `"sentence_encoder."` to the empty key, and otherwise strips
everything up to and including the first occurrence of `"sentence_encoder."`
and deletes every later (left-to-right, non-overlapping) occurrence of that
separator; the `"encoder."` pass then does the same with guard `"encoder"`
and separator `"encoder."`.  Every key not containing `"encoder"` as a
substring is returned unchanged; in particular
`rewrite("encoder.sentence_encoder.foo.weight") = "foo.weight"` and
`rewrite("plain.weight") = "plain.weight"`. -/
theorem claim5_rewrite : ∀ s : String,
    (rewriteAS s).data = prs1L (prs2L s.data)
  ∧ (∀ t : List Char,
      prs2L t =
        if hasSubL "sentence_encoder".data t = false then t
        else if hasSubL "sentence_encoder.".data t = false then []
        else removeAllSep "sentence_encoder.".data
          (dropThroughFirst "sentence_encoder.".data t))
  ∧ (∀ t : List Char,
      prs1L t =
        if hasSubL "encoder".data t = false then t
        else if hasSubL "encoder.".data t = false then []
        else removeAllSep "encoder.".data (dropThroughFirst "encoder.".data t))
  ∧ (hasSubL "encoder".data s.data = false → rewriteAS s = s)
  ∧ rewriteAS "encoder.sentence_encoder.foo.weight" = "foo.weight"
  ∧ rewriteAS "plain.weight" = "plain.weight" := by
  refine fun s => ⟨rfl, prs2L_eq, prs1L_eq, fun h => ?_, by decide, by decide⟩
  have h2 : hasSubL "sentence_encoder".data s.data = false := by
    cases hb : hasSubL "sentence_encoder".data s.data with
    | false => rfl
    | true => rw [hasSubL_sentenc_to_enc hb] at h; cases h
  rw [rewriteAS, prs2L, if_neg (by rw [h2]; exact Bool.false_ne_true),
    prs1L, if_neg (by rw [h]; exact Bool.false_ne_true)]

/-- C5 witness: a key without the substring `"encoder"` is left unchanged. -/
theorem claim5_witness : rewriteAS "plain.weight" = "plain.weight" :=
  (claim5_rewrite "plain.weight").2.2.2.1 (by decide)

/-- C6 counterexample: merging a present auxiliary checkpoint mutates the
primary: after the merge step the primary checkpoint's parameters mapping
differs from its original mapping (`dict.update` updates it in place), where
the claim asserts it is left unchanged. -/
theorem claim6_counterexample :
    (mergeStateStep cpMergeP (some cpMergeR)).1.params ≠ cpMergeP.params := by decide

/-- C6 amended: merging with a present auxiliary updates the primary
checkpoint's parameters mapping in place to the overlay (auxiliary wins
ties); the auxiliary checkpoint itself is not mutated, the primary's
configuration is untouched, and keys absent from the auxiliary keep the
primary's original values. -/
theorem claim6_merge_inplace : ∀ (p r : Checkpoint),
    ((mergeStateStep p (some r)).1.params = dictUpdate p.params r.params
  ∧ (mergeStateStep p (some r)).2.1 = some r
  ∧ (mergeStateStep p (some r)).2.2 = dictUpdate p.params r.params
  ∧ (mergeStateStep p (some r)).1.arch = p.arch
  ∧ (mergeStateStep p (some r)).1.config = p.config
  ∧ (∀ k, ¬ k ∈ r.params.map Prod.fst →
      (mergeStateStep p (some r)).1.params.lookup k = p.params.lookup k)
  ∧ mergeStateStep p none = (p, none, p.params)) := by
  intro p r
  refine ⟨rfl, rfl, rfl, rfl, rfl, fun k hk => ?_, rfl⟩
  exact dictUpdate_lookup_not_mem r.params p.params k hk

/-- C6 witness: a key absent from the auxiliary keeps its primary value. -/
theorem claim6_witness :
    (mergeStateStep cpMergeP (some cpMergeR)).1.params.lookup "a" =
      cpMergeP.params.lookup "a" :=
  (claim6_merge_inplace cpMergeP cpMergeR).2.2.2.2.2.1 "a" (by decide)

/-- C7: the merged parameters mapping binds every key of the auxiliary to the
auxiliary's value and every other key to the primary's value (auxiliary wins
ties on raw names); configuration comes from the primary; merging with no
auxiliary is the identity; and `{a:1, b:2}` merged with `{b:9, c:3}` gives
`{a:1, b:9, c:3}`. -/
theorem claim7_merge : ∀ (md r : Checkpoint), (r.params.map Prod.fst).Nodup →
    ((mergeStep md (some r)).arch = md.arch
  ∧ (mergeStep md (some r)).config = md.config
  ∧ (∀ k, (mergeStep md (some r)).params.lookup k = overlayLookup md.params r.params k)
  ∧ mergeStep md none = md
  ∧ dictUpdate [("a", ([1] : Blob)), ("b", [2])] [("b", [9]), ("c", [3])]
      = [("a", [1]), ("b", [9]), ("c", [3])]) := by
  intro md r hnd
  refine ⟨rfl, rfl, fun k => ?_, rfl, by decide⟩
  show (dictUpdate md.params r.params).lookup k = overlayLookup md.params r.params k
  exact dictUpdate_lookup r.params md.params k hnd

/-- C7 witness: on the concrete merge example the auxiliary wins the tie. -/
theorem claim7_witness :
    (mergeStep cpMergeP (some cpMergeR)).params.lookup "b" = some ([9] : Blob) :=
  ((claim7_merge cpMergeP cpMergeR (by decide)).2.2.1 "b").trans (by decide)


/-- C8: the Convention C row/column substring swap (replace every `"row"` with
`"column"` if the key contains `"row"`, else replace every `"column"` with
`"row"`) is an involution on every key containing exactly one of the two
substrings; in particular `rewrite("layer.rows_attn.weight") =
"layer.columns_attn.weight"` and `rewrite("layer.columns_attn.weight") =
"layer.rows_attn.weight"`. -/
theorem claim8_involution : ∀ s : String,
    (((hasSubL rowChars s.data = true ∧ hasSubL colChars s.data = false) ∨
      (hasSubL colChars s.data = true ∧ hasSubL rowChars s.data = false)) →
      prs3S (prs3S s) = s)
  ∧ prs3S "layer.rows_attn.weight" = "layer.columns_attn.weight"
  ∧ prs3S "layer.columns_attn.weight" = "layer.rows_attn.weight" := by
  refine fun s => ⟨fun h => ?_, by decide, by decide⟩
  exact congrArg String.mk (rcSwapL_invol h)

/-- C8 witness: double swap on the concrete key `"rows"`. -/
theorem claim8_witness : prs3S (prs3S "rows") = "rows" :=
  (claim8_involution "rows").1 (Or.inl (by decide))

/-- C9: the mask-index zeroing runs only for Convention A (`roberta_large`):
after rewriting, the blob at `"embed_tokens.weight"` is replaced by the same
blob with the row at the mask index zeroed and every other entry of the
rewritten mapping is untouched; for Conventions B (`protein_bert_base`) and C
(`msa_transformer`) the dispatch returns the rewritten mappings directly and
every blob in them is (an untouched) one of the input checkpoint's blobs.
Dispatch precedes validation and assignment in `loadCore` by construction. -/
theorem claim9_mask_zeroing : ∀ (md : Checkpoint) (i : Nat),
    (md.arch = "roberta_large" →
      archDispatch md i = (maskZeroStep i (dictComp rewriteAS md.params)).map
        (fun ms => (ms, dictComp praAS md.config))
      ∧ ∀ (ms : Params) (margs : List (String × Int)),
          archDispatch md i = Except.ok (ms, margs) →
          ∃ b : Blob, (dictComp rewriteAS md.params).lookup "embed_tokens.weight" = some b
            ∧ ms = setKey (dictComp rewriteAS md.params) "embed_tokens.weight" (b.set i 0)
            ∧ ms.lookup "embed_tokens.weight" = some (b.set i 0)
            ∧ (i < b.length → (b.set i 0)[i]? = some (0 : Int))
            ∧ (∀ k, k ≠ "embed_tokens.weight" →
                ms.lookup k = (dictComp rewriteAS md.params).lookup k))
  ∧ (md.arch = "protein_bert_base" →
      archDispatch md i = Except.ok (dictComp rewriteBS md.params, dictComp praBS md.config)
      ∧ ∀ kv ∈ dictComp rewriteBS md.params, kv.2 ∈ md.params.map Prod.snd)
  ∧ (md.arch = "msa_transformer" →
      archDispatch md i = Except.ok (dictComp rewriteCS md.params, dictComp praAS md.config)
      ∧ ∀ kv ∈ dictComp rewriteCS md.params, kv.2 ∈ md.params.map Prod.snd) := by
  intro md i
  refine ⟨fun h => ⟨archDispatch_roberta h i, ?_⟩,
    fun h => ⟨archDispatch_bert h i, fun kv hkv => dictComp_values _ _ kv hkv⟩,
    fun h => ⟨archDispatch_msa h i, fun kv hkv => dictComp_values _ _ kv hkv⟩⟩
  intro ms margs hok
  rw [archDispatch_roberta h i] at hok
  rw [maskZeroStep] at hok
  cases hl : (dictComp rewriteAS md.params).lookup "embed_tokens.weight" with
  | none =>
    rw [hl] at hok
    cases hok
  | some b =>
    rw [hl] at hok
    simp only [Except.map, Except.ok.injEq, Prod.mk.injEq] at hok
    refine ⟨b, rfl, hok.1.symm, ?_, fun hi => List.getElem?_set_self hi, fun k hk => ?_⟩
    · rw [← hok.1]
      exact setKey_lookup_self _ _ _
    · rw [← hok.1]
      exact setKey_lookup_ne _ _ _ _ hk

/-- C9 witness: the Convention A branch applied to the concrete checkpoint
`cpRob` with mask index 0. -/
theorem claim9_witness :
    ∃ b : Blob, (dictComp rewriteAS cpRob.params).lookup "embed_tokens.weight" = some b
      ∧ msRob = setKey (dictComp rewriteAS cpRob.params) "embed_tokens.weight" (b.set 0 0)
      ∧ msRob.lookup "embed_tokens.weight" = some (b.set 0 0)
      ∧ (0 < b.length → (b.set 0 0)[0]? = some (0 : Int))
      ∧ (∀ k, k ≠ "embed_tokens.weight" →
          msRob.lookup k = (dictComp rewriteAS cpRob.params).lookup k) :=
  ((claim9_mask_zeroing cpRob 0).1 rfl).2 msRob [] rfl

/-- C10: for architecture `roberta_large`, if the rewritten parameters mapping
has no key `"embed_tokens.weight"`, the load raises the key-lookup error at
the mask-zeroing step, before schema validation runs, whatever the expected
key set is — not a `SchemaMismatchError` reporting that key as missing. -/
theorem claim10_keylookup :
    ∀ (md : Checkpoint) (rd : Option Checkpoint) (i : Nat) (ek : List String),
    md.arch = "roberta_large" →
    (dictComp rewriteAS (mergeStep md rd).params).lookup "embed_tokens.weight" = none →
    (loadCore md rd i ek).1 = Except.error (LoadErr.keyLookup "embed_tokens.weight") := by
  intro md rd i ek h1 h2
  have hd : archDispatch (mergeStep md rd) i =
      Except.error (LoadErr.keyLookup "embed_tokens.weight") := by
    rw [archDispatch_roberta (by rw [mergeStep_arch]; exact h1) i, maskZeroStep, h2]
    rfl
  rw [loadCore_eq, hd]

/-- C10 witness: a concrete `roberta_large` checkpoint without
`embed_tokens.weight` fails with the key-lookup error even though the expected
key set names exactly that key. -/
theorem claim10_witness :
    (loadCore cpRobNoEmbed none 0 ["embed_tokens.weight"]).1 =
      Except.error (LoadErr.keyLookup "embed_tokens.weight") :=
  claim10_keylookup cpRobNoEmbed none 0 ["embed_tokens.weight"] rfl rfl

end RNAFM
